import Mathlib

/-!
Verification of the hangman repository's guess state machine.

The definitions below are a shallow embedding of `src/game.rs` (the
canonical 6-lives variant driven by `src/main.rs`), together with the
phrase-acquisition functions of `src/main.rs` and `src/lib.rs`.
Strings are modelled as `List Char`; the `u8` lives counter is a `Nat`
with explicit wrap-around `% 256` where Rust would overflow; Rust's
panics and `Result` errors become `Option`.
-/

namespace Hangman

/-- Embeds the Rust byte ranges `CAPITAL: Range<u8> = 65..91` and
`LOWERCASE: Range<u8> = 97..123` together with `is_alpha_utf` of
`src/game.rs`: a byte is alphabetic iff it lies in `[A-Z]` or `[a-z]`. -/
def is_alpha_utf (byte : Nat) : Bool :=
  (65 ≤ byte && byte < 91) || (97 ≤ byte && byte < 123)

/-- Embeds `lowercase` of `src/game.rs`.  Rust computes `let chu8 = ch as u8`,
which truncates the Unicode scalar value to its low 8 bits (`% 256`).
If the truncated byte is in `LOWERCASE` the ORIGINAL character is returned;
if it is in `CAPITAL` the character `chu8 + 32` is returned; otherwise the
guess fails with `GuessError` (modelled as `none`). -/
def lowercase (ch : Char) : Option Char :=
  if 97 ≤ ch.toNat % 256 && ch.toNat % 256 < 123 then
    some ch
  else if 65 ≤ ch.toNat % 256 && ch.toNat % 256 < 91 then
    some (Char.ofNat (ch.toNat % 256 + 32))
  else
    none

/-- UTF-8 encoding of a single character, byte values as `Nat`.
Models what `str::as_bytes` exposes for one `char` of the Rust `String`. -/
def utf8Encode (c : Char) : List Nat :=
  if c.toNat < 128 then [c.toNat]
  else if c.toNat < 2048 then [192 + c.toNat / 64, 128 + c.toNat % 64]
  else if c.toNat < 65536 then
    [224 + c.toNat / 4096, 128 + (c.toNat / 64) % 64, 128 + c.toNat % 64]
  else
    [240 + c.toNat / 262144, 128 + (c.toNat / 4096) % 64, 128 + (c.toNat / 64) % 64,
      128 + c.toNat % 64]

/-- The byte sequence `phrase.as_bytes()` of a Rust `String` whose character
sequence is `s`. -/
def utf8Bytes : List Char → List Nat
  | [] => []
  | c :: rest => utf8Encode c ++ utf8Bytes rest

/-- Embeds `validate_phrase` of `src/game.rs`: iterate over
`phrase.chars().zip(phrase.as_bytes().iter())` and panic on any byte `≥ 128`.
Returns `true` iff the construction does not panic. -/
def validate_phrase (phrase : List Char) : Bool :=
  (phrase.zip (utf8Bytes phrase)).all (fun cb => cb.2 < 128)

/-- Embeds the `GameBoard` struct of `src/game/board.rs` (its only state is
the `padding` copied from the phrase length). -/
structure GameBoard where
  padding : Nat
deriving DecidableEq, Repr

/-- Embeds the `HangmanGame` struct of `src/game.rs`. -/
structure HangmanGame where
  phrase : List Char
  lives : Nat
  guesses : List Char
  should_quit : Bool
  board : GameBoard
deriving DecidableEq, Repr

/-- The observable per-guess effect: which of the `issue_*` reporting
functions of `src/game.rs` the guess path invokes. -/
inductive GuessEffect where
  | invalidGuess
  | duplicateGuess
  | correctGuess
  | incorrectGuess
deriving DecidableEq, Repr

/-- Embeds the loop body of `construct_hidden_phrase` of `src/game.rs`,
for one `(char, byte)` pair of the zip: an alphabetic byte shows the
character iff its `lowercase` form has been guessed (masking with `'_'`
otherwise, and pushing nothing if `lowercase` fails); a non-alphabetic
byte passes the character through. -/
def hidden_step (guesses : List Char) (cb : Char × Nat) : List Char :=
  if is_alpha_utf cb.2 then
    match lowercase cb.1 with
    | some lower => if guesses.contains lower then [cb.1] else ['_']
    | none => []
  else [cb.1]

/-- Embeds `construct_hidden_phrase` of `src/game.rs` as a function of the
phrase and guess list: fold `hidden_step` over
`phrase.chars().zip(phrase.as_bytes())`. -/
def hidden_core (phrase guesses : List Char) : List Char :=
  ((phrase.zip (utf8Bytes phrase)).map (hidden_step guesses)).flatten

/-- `HangmanGame::construct_hidden_phrase`. -/
def construct_hidden_phrase (g : HangmanGame) : List Char :=
  hidden_core g.phrase g.guesses

/-- Embeds `HangmanGame::add_guess` of `src/game.rs`, returning the updated
state and the reported effect.  `issue_correct_guess` performs the win
check (`construct_hidden_phrase == phrase` sets `should_quit`); the
incorrect path decrements the `u8` lives counter (wrap-around modelled
explicitly) and sets `should_quit` when it reaches 0. -/
def add_guess (g : HangmanGame) (guess : Char) : HangmanGame × GuessEffect :=
  if g.guesses.contains guess then
    (g, GuessEffect.duplicateGuess)
  else
    let g1 : HangmanGame := { g with guesses := g.guesses ++ [guess] }
    if g1.phrase.contains guess then
      if construct_hidden_phrase g1 = g1.phrase then
        ({ g1 with should_quit := true }, GuessEffect.correctGuess)
      else
        (g1, GuessEffect.correctGuess)
    else
      let g2 : HangmanGame := { g1 with lives := (g1.lives + 255) % 256 }
      if g2.lives = 0 then
        ({ g2 with should_quit := true }, GuessEffect.incorrectGuess)
      else
        (g2, GuessEffect.incorrectGuess)

/-- Embeds `HangmanGame::update_guesses` of `src/game.rs`: normalize the raw
character through `lowercase`; on failure report `InvalidGuess` and leave
the state untouched, otherwise delegate to `add_guess`. -/
def update_guesses (g : HangmanGame) (guess : Char) : HangmanGame × GuessEffect :=
  match lowercase guess with
  | some lower => add_guess g lower
  | none => (g, GuessEffect.invalidGuess)

/-- Embeds `HangmanGame::new` of `src/game.rs`: `validate_phrase` panics on a
non-ASCII byte (modelled as `none`); otherwise the game starts with 6 lives,
no guesses, the quit flag cleared and a board padded by the phrase length. -/
def HangmanGame.new (phrase : List Char) : Option HangmanGame :=
  if validate_phrase phrase then
    some { phrase := phrase
           lives := 6
           guesses := []
           should_quit := false
           board := { padding := phrase.length } }
  else
    none

/-- The six body-part glyphs drawn by `GameBoard::print_head` through
`GameBoard::print_right_leg` of `src/game/board.rs`. -/
inductive BodyPart where
  | head
  | torso
  | leftArm
  | rightArm
  | leftLeg
  | rightLeg
deriving DecidableEq, Repr

/-- Embeds `HangmanGame::print_body` of `src/game.rs`: the list of body
parts drawn, in call order, for a given lives count. -/
def print_body (lives : Nat) : List BodyPart :=
  if lives = 6 then []
  else
    (if lives ≤ 5 then [BodyPart.head] else []) ++
    (if lives ≤ 4 then [BodyPart.torso] else []) ++
    (if lives ≤ 3 then [BodyPart.leftArm] else []) ++
    (if lives ≤ 2 then [BodyPart.rightArm] else []) ++
    (if lives ≤ 1 then [BodyPart.leftLeg] else []) ++
    (if lives = 0 then [BodyPart.rightLeg] else [])

/-- The states reachable by the `play` loop of `src/game.rs`: the initial
state built by `HangmanGame::new`, closed under evaluating one guessed
character per iteration while the quit flag is unset (an empty input line
is a no-op and takes no step). -/
inductive Reachable (phrase : List Char) : HangmanGame → Prop where
  | init (g : HangmanGame) (h : HangmanGame.new phrase = some g) :
      Reachable phrase g
  | step (g : HangmanGame) (c : Char) (hr : Reachable phrase g)
      (hq : g.should_quit = false) :
      Reachable phrase (update_guesses g c).1

/-- The spec's notion of an ASCII letter: a character in `[A-Za-z]`
(stated from the spec's words, for comparison with the code's
`lowercase` acceptance set). -/
def specAsciiLetter (c : Char) : Bool :=
  (65 ≤ c.toNat && c.toNat < 91) || (97 ≤ c.toNat && c.toNat < 123)

/-- The spec's lowercase fold on characters: capital ASCII letters move
down by 32, everything else is unchanged. -/
def specToLower (c : Char) : Char :=
  if 65 ≤ c.toNat && c.toNat < 91 then Char.ofNat (c.toNat + 32) else c

/-- The spec's description of the hidden-phrase view: each alphabetic
character of the phrase is shown iff its lowercase form is in the guess
set (else masked with an underscore); non-alphabetic characters pass
through unmasked. -/
def specHiddenView (phrase guesses : List Char) : List Char :=
  phrase.map fun c =>
    if specAsciiLetter c then
      (if guesses.contains (specToLower c) then c else '_')
    else c

/-- Embeds the phrase selection of `play` in `src/main.rs`:
`args.get(1..args.len())` succeeds iff the argument vector (which
includes the program name) is nonempty, and the phrase is the
space-joined tail.  The returned phrase is handed to
`HangmanGame::new` unconditionally, even when it is empty. -/
def main_phrase (args : List String) : Option String :=
  if 1 ≤ args.length then some (String.intercalate " " (args.drop 1)) else none

/-- Embeds `load_command_line` of `src/lib.rs`: strip the program name
(`args.remove(0)`; `env::args` is never empty, so the `[]` case is
unreachable and mapped to the error case), space-join the rest and fail
with `ErrorKind::NotFound` (modelled as `none`) when the result is
empty. -/
def load_command_line (args : List String) : Option String :=
  match args with
  | [] => none
  | _ :: rest =>
    if (String.intercalate " " rest).isEmpty then none
    else some (String.intercalate " " rest)

/-- Embeds `read_command_line` of `src/lib.rs`: the command-line phrase
when `load_command_line` succeeds, otherwise the line obtained by
`prompt_command_line` from stdin (modelled as a parameter). -/
def read_command_line (args : List String) (stdin_line : String) : String :=
  match load_command_line args with
  | some phrase => phrase
  | none => stdin_line

/-- The game constructed by `HangmanGame::new` for the phrase `"a"`. -/
def phrase_a_game : HangmanGame :=
  { phrase := ['a']
    lives := 6
    guesses := []
    should_quit := false
    board := { padding := 1 } }

/-- The game constructed by `HangmanGame::new` for the phrase `"A"`. -/
def phrase_capital_a_game : HangmanGame :=
  { phrase := ['A']
    lives := 6
    guesses := []
    should_quit := false
    board := { padding := 1 } }

/-- The game constructed by `HangmanGame::new` for the phrase `" "`. -/
def phrase_space_game : HangmanGame :=
  { phrase := [' ']
    lives := 6
    guesses := []
    should_quit := false
    board := { padding := 1 } }

/-- A mid-game state for the phrase `"a"` in which `'a'` has already
been guessed. -/
def phrase_a_guessed_game : HangmanGame :=
  { phrase := ['a']
    lives := 6
    guesses := ['a']
    should_quit := false
    board := { padding := 1 } }

/-- A mid-game state for the phrase `"a b"` in which `'a'` has been
guessed. -/
def phrase_ab_game : HangmanGame :=
  { phrase := ['a', ' ', 'b']
    lives := 6
    guesses := ['a']
    should_quit := false
    board := { padding := 3 } }

theorem update_guesses_cases (g : HangmanGame) (c : Char) :
    (lowercase c = none ∧ update_guesses g c = (g, GuessEffect.invalidGuess)) ∨
    (∃ l, lowercase c = some l ∧ g.guesses.contains l = true ∧
      update_guesses g c = (g, GuessEffect.duplicateGuess)) ∨
    (∃ l, lowercase c = some l ∧ g.guesses.contains l = false ∧
      g.phrase.contains l = true ∧
      update_guesses g c =
        ({ g with
            guesses := g.guesses ++ [l]
            should_quit := if hidden_core g.phrase (g.guesses ++ [l]) = g.phrase
              then true else g.should_quit },
         GuessEffect.correctGuess)) ∨
    (∃ l, lowercase c = some l ∧ g.guesses.contains l = false ∧
      g.phrase.contains l = false ∧
      update_guesses g c =
        ({ g with
            guesses := g.guesses ++ [l]
            lives := (g.lives + 255) % 256
            should_quit := if (g.lives + 255) % 256 = 0 then true else g.should_quit },
         GuessEffect.incorrectGuess)) := by
  unfold update_guesses
  cases hl : lowercase c with
  | none => exact Or.inl ⟨rfl, rfl⟩
  | some l =>
    right
    unfold add_guess construct_hidden_phrase
    rcases hdup : g.guesses.contains l with _ | _
    · right
      rcases hcon : g.phrase.contains l with _ | _
      · right
        refine ⟨l, rfl, hdup, hcon, ?_⟩
        simp only [hdup, hcon]
        by_cases hz : (g.lives + 255) % 256 = 0 <;> simp [hz]
      · left
        refine ⟨l, rfl, hdup, hcon, ?_⟩
        simp only [hdup, hcon]
        by_cases hw : hidden_core g.phrase (g.guesses ++ [l]) = g.phrase <;> simp [hw]
    · exact Or.inl ⟨l, rfl, hdup, by simp only [hdup]; simp⟩

theorem char_toNat_ofNat (n : Nat) (h : n < 55296) : (Char.ofNat n).toNat = n := by
  have hv : n.isValidChar := Or.inl h
  simp [Char.ofNat, hv, Char.ofNatAux, Char.toNat, UInt32.toNat, BitVec.toNat_ofNatLt]

theorem lowercase_some_mod (ch l : Char) (h : lowercase ch = some l) :
    97 ≤ l.toNat % 256 ∧ l.toNat % 256 < 123 := by
  unfold lowercase at h
  split at h
  · rename_i h1
    simp only [Bool.and_eq_true, decide_eq_true_eq] at h1
    cases h
    omega
  · split at h
    · rename_i h1 h2
      simp only [Bool.and_eq_true, decide_eq_true_eq] at h2
      cases h
      have : (Char.ofNat (ch.toNat % 256 + 32)).toNat = ch.toNat % 256 + 32 :=
        char_toNat_ofNat _ (by omega)
      omega
    · cases h

theorem utf8Encode_ascii (c : Char) (h : c.toNat < 128) : utf8Encode c = [c.toNat] := by
  unfold utf8Encode
  simp [h]

theorem utf8Encode_head_high (c : Char) (h : 128 ≤ c.toNat) :
    ∃ b bs, utf8Encode c = b :: bs ∧ 128 ≤ b := by
  unfold utf8Encode
  split
  · omega
  · split
    · exact ⟨_, _, rfl, by omega⟩
    · split
      · exact ⟨_, _, rfl, by omega⟩
      · exact ⟨_, _, rfl, by omega⟩

theorem validate_iff (phrase : List Char) :
    validate_phrase phrase = true ↔ ∀ c ∈ phrase, c.toNat < 128 := by
  induction phrase with
  | nil => simp [validate_phrase, utf8Bytes]
  | cons c rest ih =>
    by_cases hc : c.toNat < 128
    · have he : utf8Encode c = [c.toNat] := utf8Encode_ascii c hc
      simp only [validate_phrase, utf8Bytes, he, List.cons_append, List.zip_cons_cons,
        List.all_cons, Bool.and_eq_true, decide_eq_true_eq, List.nil_append] at ih ⊢
      simp only [List.mem_cons]
      constructor
      · rintro ⟨_, hrest⟩ c' (rfl | hm)
        · exact hc
        · exact ih.mp hrest c' hm
      · intro hall
        exact ⟨hc, ih.mpr fun c' hm => hall c' (Or.inr hm)⟩
    · obtain ⟨b, bs, he, hb⟩ := utf8Encode_head_high c (by omega)
      simp only [validate_phrase, utf8Bytes, he, List.cons_append, List.zip_cons_cons,
        List.all_cons, Bool.and_eq_true, decide_eq_true_eq]
      constructor
      · rintro ⟨hlt, _⟩
        omega
      · intro hall
        exact absurd (hall c (List.mem_cons_self c rest)) hc

theorem utf8Bytes_lt_iff (phrase : List Char) :
    (∀ b ∈ utf8Bytes phrase, b < 128) ↔ ∀ c ∈ phrase, c.toNat < 128 := by
  induction phrase with
  | nil => simp [utf8Bytes]
  | cons c rest ih =>
    simp only [utf8Bytes, List.mem_append, List.mem_cons]
    constructor
    · intro hall c' hm
      rcases hm with rfl | hm
      · by_contra hge
        obtain ⟨b, bs, he, hb⟩ := utf8Encode_head_high c' (by omega)
        have := hall b (Or.inl (by simp [he]))
        omega
      · exact ih.mp (fun b hb => hall b (Or.inr hb)) c' hm
    · intro hall b hm
      rcases hm with hm | hm
      · have hc : c.toNat < 128 := hall c (Or.inl rfl)
        rw [utf8Encode_ascii c hc] at hm
        simp at hm
        omega
      · exact ih.mpr (fun c' h => hall c' (Or.inr h)) b hm

theorem reachable_inv (phrase : List Char) (g : HangmanGame) (h : Reachable phrase g) :
    g.phrase = phrase ∧ validate_phrase phrase = true ∧ g.lives ≤ 6 ∧
    (g.lives = 0 → g.should_quit = true) := by
  induction h with
  | init g0 h0 =>
    unfold HangmanGame.new at h0
    split at h0
    · rename_i hv
      cases h0
      exact ⟨rfl, hv, by simp, by simp⟩
    · cases h0
  | step g c hr hq ih =>
    obtain ⟨hp, hv, hl6, hl0⟩ := ih
    have hlpos : g.lives ≠ 0 := fun h0 => by rw [hl0 h0] at hq; cases hq
    rcases update_guesses_cases g c with ⟨_, hu⟩ | ⟨l, _, _, hu⟩ | ⟨l, _, _, _, hu⟩ |
      ⟨l, _, _, _, hu⟩ <;> rw [hu]
    · exact ⟨hp, hv, hl6, hl0⟩
    · exact ⟨hp, hv, hl6, hl0⟩
    · refine ⟨hp, hv, hl6, fun h0 => absurd h0 hlpos⟩
    · refine ⟨hp, hv, by simp; omega, ?_⟩
      intro h0
      simp at h0 ⊢
      omega

theorem hidden_step_ascii (guesses : List Char) (c : Char) (hc : c.toNat < 128) :
    hidden_step guesses (c, c.toNat) =
      [if specAsciiLetter c then
          (if guesses.contains (specToLower c) then c else '_')
        else c] := by
  have hm : c.toNat % 256 = c.toNat := Nat.mod_eq_of_lt (by omega)
  by_cases h1 : 97 ≤ c.toNat ∧ c.toNat < 123
  · have h4 : ¬ c.toNat < 91 := by omega
    by_cases hg : c ∈ guesses <;>
      simp [hidden_step, is_alpha_utf, lowercase, specAsciiLetter, specToLower,
        hm, h1.1, h1.2, h4, hg]
  · by_cases h2 : 65 ≤ c.toNat ∧ c.toNat < 91
    · have h5 : ¬ 97 ≤ c.toNat := by omega
      by_cases hg : Char.ofNat (c.toNat + 32) ∈ guesses <;>
        simp [hidden_step, is_alpha_utf, lowercase, specAsciiLetter, specToLower,
          hm, h2.1, h2.2, h5, hg]
    · simp [hidden_step, is_alpha_utf, lowercase, specAsciiLetter, specToLower,
        hm, h1, h2]

theorem hidden_core_ascii (guesses : List Char) :
    ∀ phrase : List Char, (∀ c ∈ phrase, c.toNat < 128) →
      hidden_core phrase guesses = specHiddenView phrase guesses := by
  intro phrase
  induction phrase with
  | nil => intro _; rfl
  | cons c rest ih =>
    intro h
    have hc : c.toNat < 128 := h c (List.mem_cons_self c rest)
    have he : utf8Encode c = [c.toNat] := utf8Encode_ascii c hc
    have ht := ih fun c' hm => h c' (List.mem_cons_of_mem c hm)
    simp only [hidden_core, utf8Bytes, he, List.cons_append, List.nil_append,
      List.zip_cons_cons, List.map_cons, List.flatten_cons, specHiddenView,
      List.map_cons] at ht ⊢
    rw [ht, hidden_step_ascii guesses c hc]
    rfl

/-- Claim C1: at the failing input (phrase `"A"`, guess `'a'`) the phrase
contains the guessed letter in uppercase form, yet `add_guess` marks the
guess incorrect and decrements the lives counter from 6 to 5, because
`phrase.contains` is checked against the lowercase-folded guess without
folding the phrase; the hidden-phrase view (which does fold the phrase)
is then fully revealed although a life was lost and no win check ran. -/
theorem case_check_not_case_insensitive :
    HangmanGame.new ['A'] = some phrase_capital_a_game ∧
    lowercase 'a' = some 'a' ∧
    phrase_capital_a_game.phrase.contains 'A' = true ∧
    update_guesses phrase_capital_a_game 'a' =
      ({ phrase := ['A']
         lives := 5
         guesses := ['a']
         should_quit := false
         board := { padding := 1 } }, GuessEffect.incorrectGuess) ∧
    construct_hidden_phrase (update_guesses phrase_capital_a_game 'a').1 =
      (update_guesses phrase_capital_a_game 'a').1.phrase := by
  decide

/-- Claim C2 (counterexample): for the phrase `" "` the very first guess `'a'`
is a successful record (effect `incorrectGuess`), after which the
hidden-phrase view equals the phrase, yet the game does not transition
to Won: the quit flag stays false and a life has been lost — the win
check is not performed after incorrect records. -/
theorem win_check_not_after_incorrect_cex :
    (update_guesses phrase_space_game 'a').2 = GuessEffect.incorrectGuess ∧
    construct_hidden_phrase (update_guesses phrase_space_game 'a').1 =
      (update_guesses phrase_space_game 'a').1.phrase ∧
    (update_guesses phrase_space_game 'a').1.should_quit = false ∧
    (update_guesses phrase_space_game 'a').1.lives = 5 := by
  decide

/-- Claim C2 (amended): after a correct new-letter record the hidden-phrase
view is recomputed and the quit flag is set exactly when it equals the
phrase, regardless of remaining lives (no life is lost on this path);
after an incorrect record no win check occurs — the quit flag is set
exactly when the lives counter has reached 0. -/
theorem win_check_after_correct_amended (g : HangmanGame) (c : Char)
    (hq : g.should_quit = false) :
    ((update_guesses g c).2 = GuessEffect.correctGuess →
      (update_guesses g c).1.lives = g.lives ∧
      ((update_guesses g c).1.should_quit = true ↔
        construct_hidden_phrase (update_guesses g c).1 =
          (update_guesses g c).1.phrase)) ∧
    ((update_guesses g c).2 = GuessEffect.incorrectGuess →
      ((update_guesses g c).1.should_quit = true ↔
        (update_guesses g c).1.lives = 0)) := by
  rcases update_guesses_cases g c with ⟨_, hu⟩ | ⟨l, _, _, hu⟩ |
    ⟨l, _, _, _, hu⟩ | ⟨l, _, _, _, hu⟩ <;> rw [hu]
  · exact ⟨(fun h => nomatch h), (fun h => nomatch h)⟩
  · exact ⟨(fun h => nomatch h), (fun h => nomatch h)⟩
  · refine ⟨fun _ => ⟨rfl, ?_⟩, (fun h => nomatch h)⟩
    simp only [construct_hidden_phrase]
    by_cases hw : hidden_core g.phrase (g.guesses ++ [l]) = g.phrase <;>
      simp [hw, hq]
  · refine ⟨(fun h => nomatch h), fun _ => ?_⟩
    by_cases h0 : (g.lives + 255) % 256 = 0 <;> simp [h0, hq]

/-- Claim C2 witness: for the phrase `"a"`, guessing `'a'` is a correct record
whose recomputed hidden view equals the phrase, so the quit flag is set. -/
theorem win_check_after_correct_amended_witness :
    (update_guesses phrase_a_game 'a').1.should_quit = true :=
  (((win_check_after_correct_amended phrase_a_game 'a' rfl).1 (by decide)).2).mpr
    (by decide)

/-- Claim C3 (counterexample): the character `U+0141` is not an ASCII letter,
yet `lowercase` accepts it (truncation `ch as u8` yields byte `65`,
so it folds to `'a'`); feeding it to `update_guesses` on the phrase
`"a"` is not reported as `InvalidGuess` and changes the game state
(the guess is recorded and the game is even won). -/
theorem lowercase_accepts_non_ascii_cex :
    specAsciiLetter (Char.ofNat 321) = false ∧
    lowercase (Char.ofNat 321) = some 'a' ∧
    update_guesses phrase_a_game (Char.ofNat 321) ≠
      (phrase_a_game, GuessEffect.invalidGuess) ∧
    (update_guesses phrase_a_game (Char.ofNat 321)).1.should_quit = true := by
  decide

/-- Claim C3 (amended): `lowercase` accepts exactly the characters whose
codepoint truncated to 8 bits (`ch as u8`) lands in `[A-Za-z]` — on
genuine ASCII letters it folds capitals down by 32 and keeps lowercase
letters — and every rejected character fails with `InvalidGuess`,
leaving the game state completely unchanged. -/
theorem lowercase_amended :
    (∀ ch : Char, (lowercase ch).isSome = true ↔
      ((97 ≤ ch.toNat % 256 ∧ ch.toNat % 256 < 123) ∨
        (65 ≤ ch.toNat % 256 ∧ ch.toNat % 256 < 91))) ∧
    (∀ ch : Char, 97 ≤ ch.toNat → ch.toNat < 123 → lowercase ch = some ch) ∧
    (∀ ch : Char, 65 ≤ ch.toNat → ch.toNat < 91 →
      lowercase ch = some (Char.ofNat (ch.toNat + 32))) ∧
    (∀ (g : HangmanGame) (ch : Char), lowercase ch = none →
      update_guesses g ch = (g, GuessEffect.invalidGuess)) := by
  refine ⟨?_, ?_, ?_, ?_⟩
  · intro ch
    unfold lowercase
    split
    · rename_i h1
      simp only [Bool.and_eq_true, decide_eq_true_eq] at h1
      simp [h1]
    · split
      · rename_i h1 h2
        simp only [Bool.and_eq_true, decide_eq_true_eq, not_and] at h1 h2
        simp
        omega
      · rename_i h1 h2
        simp only [Bool.and_eq_true, decide_eq_true_eq, not_and] at h1 h2
        simp only [Option.isSome_none, Bool.false_eq_true, false_iff]
        push_neg at h1 h2
        omega
  · intro ch h1 h2
    have hm : ch.toNat % 256 = ch.toNat := Nat.mod_eq_of_lt (by omega)
    unfold lowercase
    rw [hm]
    simp [h1, h2]
  · intro ch h1 h2
    have hm : ch.toNat % 256 = ch.toNat := Nat.mod_eq_of_lt (by omega)
    unfold lowercase
    rw [hm]
    have hno : ¬ (97 ≤ ch.toNat ∧ ch.toNat < 123) := by omega
    simp [h1, h2]
    omega
  · intro g ch h
    unfold update_guesses
    rw [h]

/-- Claim C3 witness: `'x'` and `'B'` are accepted and folded; `'?'` is
rejected with `InvalidGuess` and leaves the state unchanged. -/
theorem lowercase_amended_witness :
    lowercase 'x' = some 'x' ∧
    lowercase 'B' = some (Char.ofNat ('B'.toNat + 32)) ∧
    update_guesses phrase_a_game '?' = (phrase_a_game, GuessEffect.invalidGuess) :=
  ⟨lowercase_amended.2.1 'x' (by decide) (by decide),
    lowercase_amended.2.2.1 'B' (by decide) (by decide),
    lowercase_amended.2.2.2 phrase_a_game '?' (by decide)⟩

/-- Claim C4: in every reachable state the lives counter is at most its
initial value 6; while the game is still playing it is at least 1, so
the decrement cannot underflow; it starts at exactly 6; and one further
guess never increases it, decreasing it by exactly 1 precisely on a
confirmed-incorrect new letter. -/
theorem lives_counter_invariant (phrase : List Char) (g : HangmanGame)
    (h : Reachable phrase g) :
    g.lives ≤ 6 ∧
    (g.should_quit = false → 1 ≤ g.lives) ∧
    (∀ g0, HangmanGame.new phrase = some g0 → g0.lives = 6) ∧
    (∀ c, g.should_quit = false →
      (update_guesses g c).1.lives ≤ g.lives ∧
      ((update_guesses g c).2 = GuessEffect.incorrectGuess →
        (update_guesses g c).1.lives = g.lives - 1)) := by
  obtain ⟨hp, hv, hl6, hl0⟩ := reachable_inv phrase g h
  have hpos : ∀ hq : g.should_quit = false, 1 ≤ g.lives := by
    intro hq
    by_cases h0 : g.lives = 0
    · rw [hl0 h0] at hq
      cases hq
    · omega
  refine ⟨hl6, hpos, ?_, ?_⟩
  · intro g0 h0
    unfold HangmanGame.new at h0
    by_cases hvb : validate_phrase phrase = true
    · rw [if_pos hvb] at h0
      cases h0
      rfl
    · rw [if_neg hvb] at h0
      cases h0
  · intro c hq
    have h1 : 1 ≤ g.lives := hpos hq
    rcases update_guesses_cases g c with ⟨_, hu⟩ | ⟨l, _, _, hu⟩ |
      ⟨l, _, _, _, hu⟩ | ⟨l, _, _, _, hu⟩ <;> rw [hu]
    · exact ⟨le_refl _, (fun h => nomatch h)⟩
    · exact ⟨le_refl _, (fun h => nomatch h)⟩
    · exact ⟨le_refl _, (fun h => nomatch h)⟩
    · constructor
      · simp
        omega
      · intro _
        simp
        omega

/-- Claim C4 witness: at the freshly constructed game for `"a"` the invariant
instantiates: 6 lives, playing, and a wrong guess `'z'` lands on 5. -/
theorem lives_counter_invariant_witness :
    phrase_a_game.lives ≤ 6 ∧
    1 ≤ phrase_a_game.lives ∧
    (update_guesses phrase_a_game 'z').1.lives = phrase_a_game.lives - 1 := by
  have T := lives_counter_invariant ['a'] phrase_a_game
    (Reachable.init phrase_a_game (by decide))
  exact ⟨T.1, T.2.1 rfl, (T.2.2.2 'z' rfl).2 (by decide)⟩

/-- Claim C5: for every game whose phrase is ASCII (the construction
invariant), the hidden-phrase view computed by the code coincides with
the spec's description: alphabetic characters are shown iff their
lowercase form has been guessed (masked with an underscore otherwise)
and non-alphabetic characters always pass through unmasked. -/
theorem hidden_phrase_view_correct (g : HangmanGame)
    (h : ∀ c ∈ g.phrase, c.toNat < 128) :
    construct_hidden_phrase g = specHiddenView g.phrase g.guesses :=
  hidden_core_ascii g.guesses g.phrase h

/-- Claim C5 witness: for the phrase `"a b"` with `'a'` guessed, the view is
`"a _"` — the space passes through without being guessed. -/
theorem hidden_phrase_view_correct_witness :
    construct_hidden_phrase phrase_ab_game =
      specHiddenView phrase_ab_game.phrase phrase_ab_game.guesses ∧
    construct_hidden_phrase phrase_ab_game = ['a', ' ', '_'] :=
  ⟨hidden_phrase_view_correct phrase_ab_game (by decide), by decide⟩

/-- Claim C6: a guess whose normalized letter is already in the guess list is
discarded by `add_guess`: the state is returned unchanged and only the
non-fatal `DuplicateGuess` effect is reported. -/
theorem duplicate_guess_idempotent (g : HangmanGame) (ch l : Char)
    (hl : lowercase ch = some l) (hdup : g.guesses.contains l = true) :
    update_guesses g ch = (g, GuessEffect.duplicateGuess) := by
  unfold update_guesses
  rw [hl]
  unfold add_guess
  simp only [hdup]
  simp

/-- Claim C6 witness: guessing `'A'` when `'a'` is already recorded leaves the
state unchanged. -/
theorem duplicate_guess_idempotent_witness :
    update_guesses phrase_a_guessed_game 'A' =
      (phrase_a_guessed_game, GuessEffect.duplicateGuess) :=
  duplicate_guess_idempotent phrase_a_guessed_game 'A' 'a' (by decide) (by decide)

/-- Claim C7: for every lives count in `[0, 6]`, `print_body` draws exactly
`6 - lives` body parts, and they are the corresponding initial segment
of head, torso, left arm, right arm, left leg, right leg (so at 6 lives
nothing beyond the bare gallows is drawn). -/
theorem print_body_parts (lives : Nat) (h : lives ≤ 6) :
    print_body lives =
      List.take (6 - lives)
        [BodyPart.head, BodyPart.torso, BodyPart.leftArm, BodyPart.rightArm,
          BodyPart.leftLeg, BodyPart.rightLeg] ∧
    (print_body lives).length = 6 - lives := by
  interval_cases lives <;> exact ⟨rfl, rfl⟩

/-- Claim C7 witness: at 2 lives exactly four parts are drawn, in order. -/
theorem print_body_parts_witness :
    print_body 2 =
      List.take 4
        [BodyPart.head, BodyPart.torso, BodyPart.leftArm, BodyPart.rightArm,
          BodyPart.leftLeg, BodyPart.rightLeg] ∧
    (print_body 2).length = 4 :=
  print_body_parts 2 (by decide)

/-- Claim C8: construction panics (returns `none`) whenever some byte of the
phrase is `≥ 128`, and succeeds whenever all bytes are `< 128`. -/
theorem phrase_validation (phrase : List Char) :
    ((∃ b ∈ utf8Bytes phrase, 128 ≤ b) → HangmanGame.new phrase = none) ∧
    ((∀ b ∈ utf8Bytes phrase, b < 128) → (HangmanGame.new phrase).isSome = true) := by
  constructor
  · rintro ⟨b, hb, hb128⟩
    have hnot : ¬ ∀ c ∈ phrase, c.toNat < 128 := fun hall => by
      have := (utf8Bytes_lt_iff phrase).mpr hall b hb
      omega
    have hv : validate_phrase phrase = false := by
      rcases Bool.eq_false_or_eq_true (validate_phrase phrase) with h | h
      · exact absurd ((validate_iff phrase).mp h) hnot
      · exact h
    unfold HangmanGame.new
    rw [hv]
    simp
  · intro hall
    have hv : validate_phrase phrase = true :=
      (validate_iff phrase).mpr ((utf8Bytes_lt_iff phrase).mp hall)
    unfold HangmanGame.new
    rw [hv]
    simp

/-- Claim C8 witness: `"é"` (bytes 195, 169) aborts construction; `"a"`
constructs successfully. -/
theorem phrase_validation_witness :
    HangmanGame.new ['é'] = none ∧ (HangmanGame.new ['a']).isSome = true :=
  ⟨(phrase_validation ['é']).1 ⟨195, by decide, by decide⟩,
    (phrase_validation ['a']).2 (by decide)⟩

/-- Claim C9 (counterexample): with no user arguments (`args = ["hangman"]`)
the binary's `play` selects the empty phrase and starts the game with
it — it does not consult stdin — whereas the prompt fallback
(`read_command_line`, which `main` never calls) would return the line
typed on stdin. -/
theorem no_stdin_prompt_cex :
    main_phrase ["hangman"] = some "" ∧
    read_command_line ["hangman"] "rusty crab" = "rusty crab" ∧
    ("" : String) ≠ "rusty crab" := by
  refine ⟨rfl, rfl, ?_⟩
  decide

/-- Claim C9 (amended): the binary's secret phrase is the space-joined
process arguments excluding the program name; with no arguments beyond
the program name the phrase is the empty string and the game still
starts.  The library's `read_command_line` (not called by the binary)
is the function that falls back to the stdin prompt when the joined
arguments are empty. -/
theorem phrase_acquisition_amended :
    (∀ (a : String) (rest : List String),
      main_phrase (a :: rest) = some (String.intercalate " " rest)) ∧
    (∀ a : String, main_phrase [a] = some "") ∧
    (∀ (a : String) (rest : List String) (stdin_line : String),
      read_command_line (a :: rest) stdin_line =
        if (String.intercalate " " rest).isEmpty then stdin_line
        else String.intercalate " " rest) := by
  refine ⟨?_, ?_, ?_⟩
  · intro a rest
    simp [main_phrase]
  · intro a
    simp [main_phrase]
    rfl
  · intro a rest stdin_line
    unfold read_command_line load_command_line
    by_cases he : (String.intercalate " " rest).isEmpty <;> simp [he]

/-- Claim C9 witness: three user arguments join to the phrase; with none, the
library fallback returns the stdin line. -/
theorem phrase_acquisition_amended_witness :
    main_phrase ["hangman", "rusty", "crab"] =
      some (String.intercalate " " ["rusty", "crab"]) ∧
    read_command_line ["hangman"] "ox" = "ox" := by
  refine ⟨phrase_acquisition_amended.1 "hangman" ["rusty", "crab"], ?_⟩
  rw [phrase_acquisition_amended.2.2 "hangman" [] "ox"]
  rfl

/-- Claim C10: if the phrase contains no ASCII alphabetic character, then in
every reachable state the quit flag implies zero lives: the win branch
(`issue_correct_guess`, the only place comparing the hidden view to the
phrase) is never taken, so the game can only end by losing. -/
theorem no_alpha_phrase_never_won (phrase : List Char) (g : HangmanGame)
    (halpha : ∀ c ∈ phrase, specAsciiLetter c = false)
    (h : Reachable phrase g) :
    g.should_quit = true → g.lives = 0 := by
  induction h with
  | init g0 h0 =>
    unfold HangmanGame.new at h0
    by_cases hvb : validate_phrase phrase = true
    · rw [if_pos hvb] at h0
      cases h0
      intro hq
      cases hq
    · rw [if_neg hvb] at h0
      cases h0
  | step g c hr hq ih =>
    obtain ⟨hp, hv, hl6, hl0⟩ := reachable_inv phrase g hr
    have hascii : ∀ c' ∈ phrase, c'.toNat < 128 := (validate_iff phrase).mp hv
    rcases update_guesses_cases g c with ⟨_, hu⟩ | ⟨l, _, _, hu⟩ |
      ⟨l, hl, _, hcon, hu⟩ | ⟨l, hl, _, hcon, hu⟩ <;> rw [hu]
    · exact ih
    · exact ih
    · exfalso
      have hmem : l ∈ g.phrase := by
        simpa using hcon
      rw [hp] at hmem
      have h1 : l.toNat < 128 := hascii l hmem
      have h2 := lowercase_some_mod c l hl
      have h3 : specAsciiLetter l = true := by
        unfold specAsciiLetter
        have hm : l.toNat % 256 = l.toNat := Nat.mod_eq_of_lt (by omega)
        rw [hm] at h2
        simp
        omega
      rw [halpha l hmem] at h3
      cases h3
    · intro hq'
      simp only at hq'
      by_cases h0 : (g.lives + 255) % 256 = 0
      · simp only
        exact h0
      · rw [if_neg h0, hq] at hq'
        cases hq'

/-- Claim C10 witness: on the all-blank phrase `" "` the six wrong guesses
`a..f` exhaust the lives; the resulting terminal state has 0 lives. -/
theorem no_alpha_phrase_never_won_witness :
    (update_guesses (update_guesses (update_guesses (update_guesses
      (update_guesses (update_guesses phrase_space_game 'a').1 'b').1 'c').1
        'd').1 'e').1 'f').1.lives = 0 := by
  have h6 : Reachable [' '] (update_guesses (update_guesses (update_guesses
      (update_guesses (update_guesses (update_guesses phrase_space_game
        'a').1 'b').1 'c').1 'd').1 'e').1 'f').1 := by
    apply Reachable.step _ 'f' _ (by decide)
    apply Reachable.step _ 'e' _ (by decide)
    apply Reachable.step _ 'd' _ (by decide)
    apply Reachable.step _ 'c' _ (by decide)
    apply Reachable.step _ 'b' _ (by decide)
    apply Reachable.step _ 'a' _ (by decide)
    exact Reachable.init phrase_space_game (by decide)
  exact no_alpha_phrase_never_won [' '] _ (by decide) h6 (by decide)

end Hangman
